import Mathlib

/-!
Verification development for the `codelog` command-line tool
(`src/codelog/cli.py`).  The Python code is shallowly embedded: strings
are `List Char`, Python integers are `Int` (with `Int.fdiv` for Python's
floor division `//`), and code that can raise is modelled with
`Option`/`Except`.
-/

namespace Codelog

open scoped List

/-- Python whitespace characters recognised by `\s` and `str.strip()`
(restricted to the ASCII range, which is all the source ever feeds in). -/
def isPySpace (c : Char) : Bool :=
  c = ' ' || c = '\t' || c = '\n' || c = '\r' || c = '\x0b' || c = '\x0c'

/-- `line.replace('"', "")` — drop every double-quote character. -/
def removeQuotes (l : List Char) : List Char :=
  l.filter (fun c => c ≠ '\x22')

/-- Index of the last `')'` in a list, if any.  Used to model the greedy
regex `\(.*\)`: `.*` backtracks from the end of the newline-free span, so
the match closes at the *last* `')'`. -/
def lastCloseIdx : List Char → Option Nat
  | [] => none
  | c :: rest =>
    match lastCloseIdx rest with
    | some j => some (j + 1)
    | none => if c = ')' then some 0 else none

/-- `re.sub(r"\(.*\)", "", line)`, fuelled so that the scan is structural.
The scanner walks left to right; at a `'('` it looks for a `')'` later in
the same newline-free span (`.` does not match `'\n'`); the greedy `.*`
makes the match end at the last such `')'`; scanning resumes after the
removed match.  Fuel at least the length of the list is always enough,
since every step consumes at least one character. -/
def subParensF : Nat → List Char → List Char
  | 0, l => l
  | _ + 1, [] => []
  | fuel + 1, c :: rest =>
    if c = '(' then
      match lastCloseIdx (rest.takeWhile (fun d => d ≠ '\n')) with
      | some j => subParensF fuel (rest.drop (j + 1))
      | none => c :: subParensF fuel rest
    else c :: subParensF fuel rest

def subParens (l : List Char) : List Char := subParensF l.length l

/-- Map every whitespace character to `' '`. -/
def spaceify (c : Char) : Char := if isPySpace c then ' ' else c

/-- Collapse runs of adjacent `' '` to a single `' '`. -/
def squeezeSp : List Char → List Char
  | [] => []
  | [c] => [c]
  | c :: d :: rest =>
    if c = ' ' && d = ' ' then squeezeSp (d :: rest)
    else c :: squeezeSp (d :: rest)

/-- `re.sub(r"\s+", " ", line)` — each maximal run of whitespace becomes a
single space; equivalently, send every whitespace character to `' '` and
then squeeze adjacent spaces. -/
def collapseWS (l : List Char) : List Char := squeezeSp (l.map spaceify)

/-- `line.strip()` — drop leading and trailing whitespace. -/
def pyStrip (l : List Char) : List Char :=
  ((l.dropWhile isPySpace).reverse.dropWhile isPySpace).reverse

/-- The `fix` line normalizer from the source:
quote removal, then `re.sub(r"\(.*\)", "")`, then whitespace collapse,
then strip. -/
def fix (l : List Char) : List Char :=
  pyStrip (collapseWS (subParens (removeQuotes l)))

/-- `prefixChars` is a prefix of `l` (Python `str.startswith`). -/
def startsWith : List Char → List Char → Bool
  | [], _ => true
  | _ :: _, [] => false
  | p :: ps, c :: cs => p = c && startsWith ps cs

/-- The `valid` predicate from the source: the line is non-empty and does
not start with any of the configured ignore prefixes. -/
def valid (ignore : List (List Char)) (l : List Char) : Bool :=
  (decide (l ≠ [])) && !(ignore.any (fun p => startsWith p l))

/-- `output.split("\n")`. -/
def splitNl : List Char → List (List Char)
  | [] => [[]]
  | c :: rest =>
    if c = '\n' then [] :: splitNl rest
    else
      match splitNl rest with
      | [] => [[c]]
      | s :: ss => (c :: s) :: ss

/-- `", ".join(lines)`. -/
def commaJoin : List (List Char) → List Char
  | [] => []
  | [s] => s
  | s :: t :: rest => s ++ [',', ' '] ++ commaJoin (t :: rest)

/-- `" ".join(strings)`. -/
def spaceJoin : List (List Char) → List Char
  | [] => []
  | [s] => s
  | s :: t :: rest => s ++ [' '] ++ spaceJoin (t :: rest)

/-! ## The report balancer (`balance`) -/

/-- `len(s)` as a Python integer. -/
def strLen (s : List Char) : Int := (s.length : Int)

/-- Python's `s[:k]` slice: a non-negative bound takes at most `k`
characters from the front; a negative bound counts back from the end
(empty when `len(s) + k ≤ 0`). -/
def pySlice (s : List Char) (k : Int) : List Char :=
  if 0 ≤ k then s.take k.toNat else s.take ((s.length : Int) + k).toNat

/-- `even = (cap // len(sources)) - len(sources)` from the source. -/
def evenShare (sources : List (List Char)) (cap : Int) : Int :=
  cap.fdiv (sources.length : Int) - (sources.length : Int)

/-- `extra = sum(len(s) - even for short s) // sum(len(s) > even for s)`
from the source — note the numerator really is `len(s) - even`, summed
over the strings *shorter* than `even`. -/
def extraShare (sources : List (List Char)) (cap : Int) : Int :=
  (((sources.filter (fun s => strLen s < evenShare sources cap)).map
      (fun s => strLen s - evenShare sources cap)).sum).fdiv
    (((sources.filter (fun s => evenShare sources cap < strLen s)).length : Int))

/-- The `balance` function from the source, with Python's `//` rendered as
`Int.fdiv` (floor division) and a `ZeroDivisionError` rendered as `none`
(division by `len(sources)` when the list is empty, division by the long
count when no string exceeds the even share): tier 1 returns the input
unchanged when the raw sum of lengths is under the cap; tier 2 truncates
every string to `even - 3` plus `"..."`; tier 3 truncates only the long
strings, to `even + extra - 3` plus `"..."`. -/
def balance (sources : List (List Char)) (cap : Int) : Option (List (List Char)) :=
  if (sources.map strLen).sum < cap then some sources
  else if sources.length = 0 then none
  else if sources.all (fun s => evenShare sources cap ≤ strLen s) then
    some (sources.map (fun s => pySlice s (evenShare sources cap - 3) ++ [ '.', '.', '.']))
  else if (sources.filter (fun s => evenShare sources cap < strLen s)).length = 0 then none
  else
    some (sources.map (fun s =>
      if evenShare sources cap < strLen s then
        pySlice s (evenShare sources cap + extraShare sources cap - 3) ++ [ '.', '.', '.']
      else s))

/-- `Context.report`: collect the per-repo messages (taken here as an
argument, since producing them shells out to git), fall back to the dummy
text when there are no messages and the default is truthy, and otherwise
join the (balanced, when the limit is truthy) messages with spaces. -/
def contextReport (messages : List (List Char)) (limit : Int) (dflt : List Char) :
    Option (List Char) :=
  if messages = [] ∧ dflt ≠ [] then some dflt
  else if limit ≠ 0 then (balance messages limit).map spaceJoin
  else some (spaceJoin messages)

/-! ## Subprocess model, `Context.messages` and `Context.fetch` -/

inductive PyExc where
  | calledProcessError
deriving DecidableEq

/-- Outcome of running a git subprocess: either its standard output (exit
status zero) or a non-zero exit status. -/
inductive GitOutcome where
  | ok (out : List Char)
  | exited (code : Int)
deriving DecidableEq

/-- `subprocess.check_output`: returns the output, raising
`CalledProcessError` on a non-zero exit status. -/
def checkOutput : GitOutcome → Except PyExc (List Char)
  | GitOutcome.ok out => Except.ok out
  | GitOutcome.exited _ => Except.error PyExc.calledProcessError

/-- `subprocess.call`: returns the child's exit status.  Unlike
`check_output`/`check_call` it never raises `CalledProcessError`. -/
def subprocessCall (exitCode : Int) : Except PyExc Int := Except.ok exitCode

/-- The literal string `'"{path}" is not a git repository'` printed by the
error branches of `Context.messages` and `Context.fetch`.  It is not an
f-string in the source, so the braces and the word `path` are literal
text. -/
def pathErrLiteral : List Char := "\x22\x7bpath\x7d\x22 is not a git repository".toList

structure RepoM where
  name : List Char
  path : List Char
deriving DecidableEq

/-- One loop iteration of `Context.messages` applied to the decoded git
log output of a repo: split into lines, drop empties, `fix` each, keep the
`valid` ones. -/
def repoLines (ignore : List (List Char)) (out : List Char) : List (List Char) :=
  (((splitNl out).filter (fun line => line ≠ [])).map fix).filter (valid ignore)

/-- The merge-collapsing step: when the filtered list is longer than its
non-merge sublist (i.e. some line starts with "Merge"), a single literal
"PR Reviews" token is prepended to the non-merge lines. -/
def collapseMerges (lines : List (List Char)) : List (List Char) :=
  let nonMerges := lines.filter (fun line => !startsWith "Merge".toList line)
  if nonMerges.length < lines.length then "PR Reviews".toList :: nonMerges
  else lines

/-- The string yielded for one repo, or `none` when no line survives
(`if not lines: continue`). -/
def repoMessage (ignore : List (List Char)) (name : List Char) (out : List Char) :
    Option (List Char) :=
  let lines := repoLines ignore out
  if lines = [] then none
  else some ("[".toList ++ name ++ "]: ".toList ++ commaJoin (collapseMerges lines))

/-- `Context.messages` over the tracked repos, each paired with the
outcome of its `git log` subprocess.  A non-zero exit raises
`CalledProcessError`, which the source catches by printing
`pathErrLiteral` to the error stream and calling `sys.exit(1)` — modelled
as `Except.error (message, exit status)`. -/
def messagesRun (ignore : List (List Char)) :
    List (RepoM × GitOutcome) → Except (List Char × Nat) (List (List Char))
  | [] => Except.ok []
  | (r, o) :: rest =>
    match checkOutput o with
    | Except.error _ => Except.error (pathErrLiteral, 1)
    | Except.ok out =>
      match messagesRun ignore rest with
      | Except.error e => Except.error e
      | Except.ok msgs => Except.ok ((repoMessage ignore r.name out).toList ++ msgs)

/-- One loop iteration of `Context.fetch`: run `git pull` via
`subprocess.call` (whose return value the source ignores); the
`except CalledProcessError` branch would print and exit 1, but
`subprocess.call` never raises it. -/
def fetchStep (pullExitCode : Int) : Except (List Char × Nat) Unit :=
  match subprocessCall pullExitCode with
  | Except.ok _ => Except.ok ()
  | Except.error _ => Except.error (pathErrLiteral, 1)

/-- `Context.fetch` over the exit statuses of the `git pull` runs. -/
def fetchRun : List Int → Except (List Char × Nat) Unit
  | [] => Except.ok ()
  | code :: rest =>
    match fetchStep code with
    | Except.ok _ => fetchRun rest
    | Except.error e => Except.error e

/-- Exit status of the whole `fetch` command: 0 when the loop finishes
(the command then prints "All repos fetched"), else the `sys.exit` code. -/
def fetchExit (pullExitCodes : List Int) : Nat :=
  match fetchRun pullExitCodes with
  | Except.ok _ => 0
  | Except.error (_, c) => c

/-! ## The report command's row generation -/

/-- The calendar days spanned by `Arrow.span_range("day", start.floor,
end.ceil)`: every day from `f` to `t` inclusive.  Days are numbered so
that `d % 7` is Python's `weekday()` (0 = Monday, ..., 5 = Saturday,
6 = Sunday). -/
def spanRangeDays (f t : Nat) : List Nat :=
  (List.range (t + 1 - f)).map (fun k => f + k)

/-- The row list built by the `report` command: one `(date, text, hours)`
row per spanned day whose weekday is not in `(5, 6)`.  The text of a row
comes from the collector/balancer pipeline, abstracted here as a function
of the day. -/
def reportRows (text : Nat → List Char) (hours : Nat) (f t : Nat) :
    List (Nat × List Char × Nat) :=
  ((spanRangeDays f t).filter (fun d => !(d % 7 = 5 || d % 7 = 6))).map
    (fun d => (d, text d, hours))

/-! ## Config model -/

/-- A TOML table of projects, as an ordered association list (Python
dicts preserve insertion order). -/
abbrev Projects := List (List Char × List RepoM)

structure ConfigM where
  author : List Char
  ignore : List (List Char)
  limit : Int
  dummy : List Char
  datefmt : List Char
  hours : Int
  projects : Projects
deriving DecidableEq

/-- Pydantic construction `Config(**fields)`: every omitted field takes
its declared default; in particular an absent `projects` field becomes
`{"default": []}`, while a supplied `projects` mapping is used as given.
Only `author` and `projects` vary in the claims, so the other fields are
shown with their defaults. -/
def mkConfig (author : List Char) (projectsField : Option Projects) : ConfigM :=
  { author := author
    ignore := ["index on".toList, "WIP on".toList]
    limit := 400
    dummy := "PR Reviews, non coding work".toList
    datefmt := "%d/%m/%Y".toList
    hours := 8
    projects := projectsField.getD [("default".toList, [])] }

/-- `config init`: writes `Config(author=author)` — all other fields
defaulted. -/
def initConfig (author : List Char) : ConfigM := mkConfig author none

/-- `projects.get(project, [])` on the association list. -/
def lookupProj (ps : Projects) (k : List Char) : List RepoM :=
  match ps.find? (fun kv => kv.1 = k) with
  | some kv => kv.2
  | none => []

/-- `{**projects, project: repos}`: replace the value of an existing key
in place, or append a new key at the end. -/
def upsert (ps : Projects) (k : List Char) (v : List RepoM) : Projects :=
  if ps.any (fun kv => kv.1 = k) then
    ps.map (fun kv => if kv.1 = k then (kv.1, v) else kv)
  else ps ++ [(k, v)]

/-- `config track`: re-write the config with the repo appended to the
active project's list. -/
def trackWrite (c : ConfigM) (project : List Char) (r : RepoM) : ConfigM :=
  { c with projects := upsert c.projects project (lookupProj c.projects project ++ [r]) }

/-- Does the projects mapping contain the "default" key? -/
def hasDefault (c : ConfigM) : Bool :=
  c.projects.any (fun kv => kv.1 = "default".toList)

/-! ## Helper lemmas about the `fix` pipeline -/

theorem head_dropWhile_false (p : Char → Bool) (l : List Char) :
    ∀ c ∈ (l.dropWhile p).head?, p c = false := by
  intro c hc
  have h := List.head?_dropWhile_not p l
  rw [Option.mem_def] at hc
  rw [hc] at h
  exact h

theorem squeezeSp_sublist : ∀ l : List Char, squeezeSp l <+ l
  | [] => List.Sublist.refl _
  | [c] => List.Sublist.refl _
  | c :: d :: rest => by
    rw [squeezeSp]
    split
    · exact (squeezeSp_sublist (d :: rest)).cons c
    · exact (squeezeSp_sublist (d :: rest)).cons₂ c

theorem head_squeezeSp : ∀ (c : Char) (l : List Char), (squeezeSp (c :: l)).head? = some c
  | _, [] => rfl
  | c, d :: rest => by
    rw [squeezeSp]
    split
    next h =>
      have hcd : c = ' ' ∧ d = ' ' := by simpa using h
      rw [head_squeezeSp d rest, hcd.1, hcd.2]
    next h => rfl

theorem chain_squeezeSp : ∀ l : List Char,
    List.Chain' (fun a b => ¬(a = ' ' ∧ b = ' ')) (squeezeSp l)
  | [] => List.chain'_nil
  | [c] => List.chain'_singleton c
  | c :: d :: rest => by
    rw [squeezeSp]
    split
    next h => exact chain_squeezeSp (d :: rest)
    next h =>
      rw [List.chain'_cons']
      refine ⟨?_, chain_squeezeSp (d :: rest)⟩
      intro y hy
      rw [head_squeezeSp d rest, Option.mem_def, Option.some.injEq] at hy
      subst hy
      intro hcy
      simp [hcy.1, hcy.2] at h

theorem squeezeSp_eq_self : ∀ {l : List Char},
    List.Chain' (fun a b => ¬(a = ' ' ∧ b = ' ')) l → squeezeSp l = l
  | [], _ => rfl
  | [_], _ => rfl
  | c :: d :: rest, h => by
    rw [List.chain'_cons] at h
    rw [squeezeSp, if_neg (by simpa using h.1)]
    rw [squeezeSp_eq_self h.2]

theorem mem_collapseWS {c : Char} {l : List Char} (h : c ∈ collapseWS l) :
    c = ' ' ∨ (c ∈ l ∧ isPySpace c = false) := by
  unfold collapseWS at h
  have h1 : c ∈ l.map spaceify := (squeezeSp_sublist _).subset h
  obtain ⟨x, hx, hex⟩ := List.mem_map.mp h1
  unfold spaceify at hex
  split at hex
  · exact Or.inl hex.symm
  next hns =>
    subst hex
    exact Or.inr ⟨hx, by simpa using hns⟩

theorem collapseWS_eq_self {l : List Char}
    (hsp : ∀ c ∈ l, isPySpace c = true → c = ' ')
    (hch : List.Chain' (fun a b => ¬(a = ' ' ∧ b = ' ')) l) : collapseWS l = l := by
  unfold collapseWS
  have hmap : l.map spaceify = l := by
    have := List.map_congr_left (f := spaceify) (g := id) (l := l) ?_
    · simpa using this
    · intro a ha
      unfold spaceify
      split
      next hs => exact (hsp a ha hs).symm
      next => rfl
  rw [hmap]
  exact squeezeSp_eq_self hch

theorem dropWhile_eq_strip_append (l : List Char) :
    l.dropWhile isPySpace =
      pyStrip l ++ ((l.dropWhile isPySpace).reverse.takeWhile isPySpace).reverse := by
  unfold pyStrip
  conv_lhs => rw [← List.reverse_reverse (l.dropWhile isPySpace)]
  conv_lhs =>
    rw [← List.takeWhile_append_dropWhile (p := isPySpace)
      (l := (l.dropWhile isPySpace).reverse)]
  rw [List.reverse_append]

theorem pyStrip_isInfix (l : List Char) : pyStrip l <:+: l := by
  refine ⟨l.takeWhile isPySpace,
    ((l.dropWhile isPySpace).reverse.takeWhile isPySpace).reverse, ?_⟩
  rw [List.append_assoc, ← dropWhile_eq_strip_append]
  exact List.takeWhile_append_dropWhile isPySpace l

theorem head_pyStrip (l : List Char) : ∀ c ∈ (pyStrip l).head?, isPySpace c = false := by
  cases hps : pyStrip l with
  | nil => intro c hc; simp at hc
  | cons c w =>
    intro x hx
    rw [Option.mem_def, List.head?_cons, Option.some.injEq] at hx
    subst hx
    apply head_dropWhile_false isPySpace l
    rw [dropWhile_eq_strip_append l, hps]
    simp

theorem getLast_pyStrip (l : List Char) :
    ∀ c ∈ (pyStrip l).getLast?, isPySpace c = false := by
  intro c hc
  unfold pyStrip at hc
  rw [List.getLast?_reverse] at hc
  exact head_dropWhile_false isPySpace _ c hc

theorem pyStrip_eq_self {l : List Char}
    (hh : ∀ c ∈ l.head?, isPySpace c = false)
    (hl : ∀ c ∈ l.getLast?, isPySpace c = false) : pyStrip l = l := by
  unfold pyStrip
  have h1 : l.dropWhile isPySpace = l := by
    cases l with
    | nil => rfl
    | cons c w =>
      have hc := hh c (by simp)
      simp [List.dropWhile_cons, hc]
  rw [h1]
  have h2 : l.reverse.dropWhile isPySpace = l.reverse := by
    cases hr : l.reverse with
    | nil => simp
    | cons c w =>
      have hc : c ∈ l.getLast? := by
        rw [← List.head?_reverse, hr]; simp
      have := hl c hc
      simp [List.dropWhile_cons, this]
  rw [h2, List.reverse_reverse]

theorem mem_subParensF {c : Char} : ∀ (fuel : Nat) (l : List Char),
    c ∈ subParensF fuel l → c ∈ l
  | 0, _, h => h
  | _ + 1, [], h => h
  | fuel + 1, d :: rest, h => by
    rw [subParensF] at h
    split at h
    · split at h
      next j hlc =>
        exact List.mem_cons_of_mem d (List.drop_subset _ rest (mem_subParensF fuel _ h))
      next hlc =>
        rcases List.mem_cons.mp h with h1 | h2
        · exact h1 ▸ List.mem_cons_self _ _
        · exact List.mem_cons_of_mem d (mem_subParensF fuel rest h2)
    · rcases List.mem_cons.mp h with h1 | h2
      · exact h1 ▸ List.mem_cons_self _ _
      · exact List.mem_cons_of_mem d (mem_subParensF fuel rest h2)

theorem lastCloseIdx_eq_none : ∀ (l : List Char), lastCloseIdx l = none ↔ ')' ∉ l := by
  intro l
  induction l with
  | nil => simp [lastCloseIdx]
  | cons c rest ih =>
    simp only [lastCloseIdx]
    cases h : lastCloseIdx rest with
    | some j =>
      have hr : ')' ∈ rest := by
        by_contra hn
        rw [← ih, h] at hn
        exact Option.noConfusion hn
      simp [List.mem_cons, hr]
    | none =>
      have hr : ')' ∉ rest := ih.mp h
      show (if c = ')' then some 0 else none) = none ↔ ')' ∉ c :: rest
      by_cases hc : c = ')'
      · simp [hc]
      · simp [if_neg hc, List.mem_cons, hr, Ne.symm hc]

theorem pat_sublist_cons {c : Char} {w : List Char} :
    ['(', ')'] <+ (c :: w) ↔ (c = '(' ∧ ')' ∈ w) ∨ ['(', ')'] <+ w := by
  constructor
  · intro h
    cases h with
    | cons _ h2 => exact Or.inr h2
    | cons₂ _ h2 => exact Or.inl ⟨rfl, List.singleton_sublist.mp h2⟩
  · rintro (⟨rfl, hm⟩ | h)
    · exact (List.singleton_sublist.mpr hm).cons₂ '('
    · exact h.cons c

theorem pat_of_map_spaceify : ∀ {l : List Char},
    ['(', ')'] <+ l.map spaceify → ['(', ')'] <+ l := by
  intro l
  induction l with
  | nil => intro h; simpa using h
  | cons x rest ih =>
    intro h
    rw [List.map_cons, pat_sublist_cons] at h
    rw [pat_sublist_cons]
    rcases h with ⟨hx, hm⟩ | h
    · refine Or.inl ⟨?_, ?_⟩
      · unfold spaceify at hx
        split at hx
        · exact absurd hx (by decide)
        · exact hx
      · obtain ⟨y, hy, hey⟩ := List.mem_map.mp hm
        unfold spaceify at hey
        split at hey
        · exact absurd hey (by decide)
        · exact hey ▸ hy
    · exact Or.inr (ih h)

theorem takeWhile_ne_newline_eq_self {l : List Char} (h : '\n' ∉ l) :
    l.takeWhile (fun d => d ≠ '\n') = l := by
  rw [List.takeWhile_eq_self_iff]
  intro x hx
  have hne : x ≠ '\n' := by
    intro he
    subst he
    exact h hx
  simpa using hne

theorem subParensF_no_pat : ∀ (fuel : Nat) {l : List Char}, '\n' ∉ l →
    l.length ≤ fuel → ¬ ['(', ')'] <+ subParensF fuel l
  | 0, l, _, hlen => by
    have h0 : l = [] := List.length_eq_zero.mp (Nat.le_zero.mp hlen)
    subst h0
    decide
  | _ + 1, [], _, _ => by rw [subParensF]; decide
  | fuel + 1, c :: rest, hnl, hlen => by
    have hnlr : '\n' ∉ rest := fun h => hnl (List.mem_cons_of_mem _ h)
    have hlenr : rest.length ≤ fuel := by
      simpa using Nat.le_of_succ_le_succ (by simpa using hlen)
    rw [subParensF]
    split
    next hc =>
      cases hlc : lastCloseIdx (rest.takeWhile (fun d => d ≠ '\n')) with
      | some j =>
        simp only [hlc]
        have hnld : '\n' ∉ rest.drop (j + 1) := fun h => hnlr (List.drop_subset _ rest h)
        have hlend : (rest.drop (j + 1)).length ≤ fuel := by
          rw [List.length_drop]; omega
        exact subParensF_no_pat fuel hnld hlend
      | none =>
        simp only [hlc]
        intro hpat
        rw [pat_sublist_cons] at hpat
        rcases hpat with ⟨_, hm⟩ | hp
        · have h1 : ')' ∈ rest := mem_subParensF fuel rest hm
          have h2 : ')' ∉ rest.takeWhile (fun d => d ≠ '\n') := (lastCloseIdx_eq_none _).mp hlc
          rw [takeWhile_ne_newline_eq_self hnlr] at h2
          exact h2 h1
        · exact subParensF_no_pat fuel hnlr hlenr hp
    next hc =>
      intro hpat
      rw [pat_sublist_cons] at hpat
      rcases hpat with ⟨hceq, _⟩ | hp
      · exact hc hceq
      · exact subParensF_no_pat fuel hnlr hlenr hp

theorem subParensF_eq_self : ∀ (fuel : Nat) {l : List Char},
    ¬ ['(', ')'] <+ l → subParensF fuel l = l
  | 0, _, _ => rfl
  | _ + 1, [], _ => rfl
  | fuel + 1, c :: rest, h => by
    have hrest : ¬ ['(', ')'] <+ rest := fun hp => h (hp.cons c)
    rw [subParensF]
    split
    next hc =>
      subst hc
      cases hlc : lastCloseIdx (rest.takeWhile (fun d => d ≠ '\n')) with
      | some j =>
        exfalso
        have h1 : ')' ∈ rest.takeWhile (fun d => d ≠ '\n') := by
          by_contra hn
          have heq := (lastCloseIdx_eq_none _).mpr hn
          rw [heq] at hlc
          exact Option.noConfusion hlc
        have h2 : ')' ∈ rest := (List.takeWhile_sublist _).subset h1
        exact h (pat_sublist_cons.mpr (Or.inl ⟨rfl, h2⟩))
      | none =>
        simp only [hlc]
        rw [subParensF_eq_self fuel hrest]
    next hc =>
      rw [subParensF_eq_self fuel hrest]

theorem quote_not_mem_fix (l : List Char) : '\x22' ∉ fix l := by
  intro h
  have h1 : '\x22' ∈ collapseWS (subParens (removeQuotes l)) :=
    (pyStrip_isInfix _).sublist.subset h
  rcases mem_collapseWS h1 with h2 | ⟨h2, _⟩
  · exact absurd h2 (by decide)
  · have h3 : '\x22' ∈ removeQuotes l := mem_subParensF _ _ h2
    simp [removeQuotes] at h3

theorem space_mem_fix {c : Char} {l : List Char} (h : c ∈ fix l)
    (hs : isPySpace c = true) : c = ' ' := by
  have h1 : c ∈ collapseWS (subParens (removeQuotes l)) :=
    (pyStrip_isInfix _).sublist.subset h
  rcases mem_collapseWS h1 with h2 | ⟨_, h3⟩
  · exact h2
  · rw [hs] at h3
    exact absurd h3 (by decide)

theorem chain_fix (l : List Char) :
    List.Chain' (fun a b => ¬(a = ' ' ∧ b = ' ')) (fix l) :=
  List.Chain'.infix (chain_squeezeSp ((subParens (removeQuotes l)).map spaceify))
    (pyStrip_isInfix _)

theorem head_fix (l : List Char) : ∀ c ∈ (fix l).head?, isPySpace c = false :=
  head_pyStrip _

theorem getLast_fix (l : List Char) : ∀ c ∈ (fix l).getLast?, isPySpace c = false :=
  getLast_pyStrip _

theorem no_pat_fix {l : List Char} (hnl : '\n' ∉ l) : ¬ ['(', ')'] <+ fix l := by
  intro hpat
  have h1 : ['(', ')'] <+ collapseWS (subParens (removeQuotes l)) :=
    hpat.trans (pyStrip_isInfix _).sublist
  have h2 : ['(', ')'] <+ (subParens (removeQuotes l)).map spaceify :=
    h1.trans (squeezeSp_sublist _)
  have h3 : ['(', ')'] <+ subParens (removeQuotes l) := pat_of_map_spaceify h2
  have hnl' : '\n' ∉ removeQuotes l := fun h => hnl (List.mem_of_mem_filter h)
  exact subParensF_no_pat _ hnl' (le_refl _) h3

/-! ## Claim theorems -/

/-- C1: in the weighted tier of `balance`, the source computes
`extra = floor(sum(len(s) - even for short s) / count(long))` — the
*negative* of the spec's redistribution formula.  On the spec's own
example (lengths 5, 50, 50, cap 40) `even = 10` but `extra = (-5).fdiv 2
= -3`, so each long string is cut to `10 - 3 - 3 = 4` characters plus
`"..."`, not the 9 characters plus `"..."` the claim states. -/
theorem balance_weighted_tier_eval :
    balance ["AAAAA".toList,
      "BBBBBBBBBBBBBBBBBBBBBBBBBBBBBBBBBBBBBBBBBBBBBBBBBB".toList,
      "CCCCCCCCCCCCCCCCCCCCCCCCCCCCCCCCCCCCCCCCCCCCCCCCCC".toList] 40 =
    some ["AAAAA".toList, "BBBB...".toList, "CCCC...".toList] := by decide

/-- C2: the no-op tier of `balance` compares the raw sum of lengths to the
limit without counting the join separators, so the space-joined report
text can exceed the limit: three messages "a" with limit 4 pass the
`sum < cap` test unchanged, and the joined text "a a a" has length 5. -/
theorem report_text_exceeds_limit_eval :
    contextReport ["a".toList, "a".toList, "a".toList] 4
        "PR Reviews, non coding work".toList = some "a a a".toList
    ∧ 4 < ("a a a".toList).length := by decide

/-- C3: `Context.fetch` wraps `subprocess.call` in
`except CalledProcessError`, but `subprocess.call` returns the exit
status instead of raising, so the handler is dead code: a failing
`git pull` (exit status 1) leaves the run successful and the `fetch`
command exits 0 — and no list of pull outcomes can make it exit
non-zero. -/
theorem fetch_ignores_pull_failure_eval :
    fetchExit [1] = 0 ∧ ∀ codes : List Int, fetchExit codes = 0 := by
  refine ⟨rfl, fun codes => ?_⟩
  have h : ∀ cs : List Int, fetchRun cs = Except.ok () := by
    intro cs
    induction cs with
    | nil => rfl
    | cons c rest ih => simpa [fetchRun, fetchStep, subprocessCall] using ih
  simp [fetchExit, h]

/-- C4: when `git log` exits non-zero, `Context.messages` does abort with
exit status 1, but the message written to the error stream is the literal
`"{path}" is not a git repository` — the source string has no `f` prefix,
so the actual repo path (here "/tmp/r") never appears in it. -/
theorem messages_failure_literal_eval :
    messagesRun ["index on".toList, "WIP on".toList]
        [({ name := "r".toList, path := "/tmp/r".toList }, GitOutcome.exited 128)]
      = Except.error (pathErrLiteral, 1)
    ∧ pathErrLiteral ≠ "\x22/tmp/r\x22 is not a git repository".toList := by
  exact ⟨rfl, by decide⟩

/-- C5 (counterexample): the regex `\(.*\)` in `fix` is greedy and is
substituted everywhere, not non-greedily on the first run only: on
"a (x) b (y) c" it removes from the first '(' through the last ')', so
`fix` returns "a c" rather than keeping the second parenthetical as the
claim states ("a b (y) c"). -/
theorem fix_greedy_counterexample :
    fix ("a (x) b (y) c".toList) = "a c".toList
    ∧ "a c".toList ≠ "a b (y) c".toList := by decide

/-- C9 (counterexample): `fix` is not idempotent.  On "(\n)" the paren
regex cannot match across the newline, but the whitespace collapse turns
the newline into a space, so a second application of `fix` sees "( )" and
deletes it: `fix (fix "(\n)") = ""` while `fix "(\n)" = "( )"`. -/
theorem fix_not_idempotent_newline :
    fix (fix ("(\n)".toList)) ≠ fix ("(\n)".toList) := by decide

/-- C8 (counterexample): a `Config` built from a TOML document that
explicitly supplies a `projects` table without a "default" key (as a
`load` of a hand-edited file or a `config edit` write can) has no
"default" project: pydantic only injects the `{"default": []}` default
when the field is absent. -/
theorem config_load_missing_default :
    hasDefault (mkConfig "a".toList (some [("work".toList, [])])) = false := by decide

/-- C8 (amended): the "default" key is present whenever the `projects`
field was absent from the constructing document — in particular in the
config written by `config init` — and every `track` write preserves
every existing key, "default" included. -/
theorem default_key_init_and_track :
    (∀ a : List Char, hasDefault (initConfig a) = true)
    ∧ ∀ (c : ConfigM) (p : List Char) (r : RepoM),
        hasDefault c = true → hasDefault (trackWrite c p r) = true := by
  constructor
  · intro a; rfl
  · intro c p r h
    unfold hasDefault trackWrite upsert at *
    by_cases hk : c.projects.any (fun kv => kv.1 = p)
    · simpa [hk, List.any_map, Function.comp, apply_ite (fun q : List Char × List RepoM => q.1)]
        using h
    · simp only [if_neg hk, List.any_append, h, Bool.true_or]

/-- C8 (witness for the amended theorem): tracking a repo under a fresh
project name starting from the config written by `init` keeps the
"default" key. -/
theorem default_key_init_and_track_witness :
    hasDefault (trackWrite (initConfig "a".toList) "work".toList
      { name := "r".toList, path := "/tmp/r".toList }) = true :=
  default_key_init_and_track.2 (initConfig "a".toList) "work".toList
    { name := "r".toList, path := "/tmp/r".toList }
    (default_key_init_and_track.1 "a".toList)

/-- C6: whenever some filtered line starts with "Merge", the merge lines
are dropped and a single "PR Reviews" marker is prepended to the
non-merge lines. -/
theorem collapseMerges_marker (lines : List (List Char))
    (h : ∃ l ∈ lines, startsWith "Merge".toList l = true) :
    collapseMerges lines =
      "PR Reviews".toList :: lines.filter (fun l => !startsWith "Merge".toList l) := by
  have hlt : (lines.filter (fun l => !startsWith "Merge".toList l)).length < lines.length := by
    rw [List.length_filter_lt_length_iff_exists]
    obtain ⟨l, hl, hs⟩ := h
    exact ⟨l, hl, by simpa using hs⟩
  simp only [collapseMerges]
  rw [if_pos hlt]

/-- C6 (witness): `["Merge pull request #1", "Fix bug"]` collapses to
`["PR Reviews", "Fix bug"]`, marker first. -/
theorem collapseMerges_marker_witness :
    collapseMerges ["Merge pull request #1".toList, "Fix bug".toList] =
      ["PR Reviews".toList, "Fix bug".toList] := by
  have h := collapseMerges_marker ["Merge pull request #1".toList, "Fix bug".toList]
    ⟨"Merge pull request #1".toList, by decide, by decide⟩
  rw [h]
  decide

/-- C7: the rows of the `report` command are exactly one per calendar day
of the inclusive span whose weekday (0 = Monday) is Monday through
Friday, in date order; a 1-day span landing on a Saturday (day 5) yields
no rows, and a Monday-to-Friday span (days 0–4) yields exactly 5. -/
theorem report_weekday_rows (text : Nat → List Char) (hours : Nat) :
    (∀ f t d : Nat,
        d ∈ (reportRows text hours f t).map (fun row => row.1) ↔
          f ≤ d ∧ d ≤ t ∧ d % 7 < 5)
    ∧ (∀ f t : Nat,
        List.Pairwise (· < ·) ((reportRows text hours f t).map (fun row => row.1)))
    ∧ reportRows text hours 5 5 = []
    ∧ (reportRows text hours 0 4).length = 5 := by
  have key : ∀ f t : Nat, (reportRows text hours f t).map (fun row => row.1) =
      (spanRangeDays f t).filter (fun d => !(d % 7 = 5 || d % 7 = 6)) := by
    intro f t
    simp [reportRows, List.map_map, Function.comp_def]
  refine ⟨?_, ?_, ?_, ?_⟩
  · intro f t d
    rw [key]
    simp only [List.mem_filter, spanRangeDays, List.mem_map, List.mem_range,
      Bool.not_eq_true', Bool.or_eq_false_iff, decide_eq_false_iff_not]
    constructor
    · rintro ⟨⟨k, hk, rfl⟩, h5, h6⟩
      omega
    · rintro ⟨h1, h2, h3⟩
      exact ⟨⟨d - f, by omega, by omega⟩, by omega, by omega⟩
  · intro f t
    rw [key]
    apply List.Pairwise.filter
    simp only [spanRangeDays]
    rw [List.pairwise_map]
    exact (List.pairwise_lt_range _).imp (by omega)
  · simp [reportRows]
    decide
  · simp only [reportRows, List.length_map]
    decide

/-- C10: `balance` is total at `report`'s interface: on a non-empty list
of messages and a positive limit it never divides by zero.  In the
weighted tier the divisor is the number of strings longer than the even
share, and it cannot be zero: if every string were at most `even =
cap.fdiv n - n` long, the total length would be at most `n * even ≤ cap -
n * n < cap`, contradicting the failed no-op test `sum < cap`. -/
theorem balance_total (sources : List (List Char)) (cap : Int)
    (h1 : sources ≠ []) (h2 : 0 < cap) : (balance sources cap).isSome := by
  unfold balance
  split
  · rfl
  next hsum =>
    split
    next hlen => exact absurd (List.length_eq_zero.mp hlen) h1
    next hlen =>
      split
      · rfl
      next hall =>
        split
        next hzero =>
          exfalso
          have hnpos : (0 : Int) < (sources.length : Int) := by
            exact_mod_cast Nat.pos_of_ne_zero hlen
          have hfilter : sources.filter (fun s => evenShare sources cap < strLen s) = [] :=
            List.length_eq_zero.mp hzero
          have hle : ∀ s ∈ sources, strLen s ≤ evenShare sources cap := by
            intro s hs
            have := List.filter_eq_nil_iff.mp hfilter s hs
            simpa using this
          have hsumle : (sources.map strLen).sum ≤
              (sources.map strLen).length • evenShare sources cap := by
            apply List.sum_le_card_nsmul
            intro x hx
            obtain ⟨s, hs, rfl⟩ := List.mem_map.mp hx
            exact hle s hs
          rw [List.length_map, nsmul_eq_mul] at hsumle
          have hdiv : (sources.length : Int) * cap.fdiv (sources.length : Int)
              + cap.fmod (sources.length : Int) = cap := Int.fdiv_add_fmod cap _
          have hmod : 0 ≤ cap.fmod (sources.length : Int) := Int.fmod_nonneg' cap hnpos
          have hsq : 1 ≤ (sources.length : Int) * (sources.length : Int) := by nlinarith
          have hcontra : (sources.map strLen).sum < cap := by
            have hexp : (sources.length : Int) * evenShare sources cap =
                (sources.length : Int) * cap.fdiv (sources.length : Int)
                  - (sources.length : Int) * (sources.length : Int) := by
              unfold evenShare; ring
            nlinarith
          exact hsum hcontra
        · rfl

/-- C10 (witness): `balance` on a single 2-character message with limit 1
returns a value. -/
theorem balance_total_witness : (balance ["ab".toList] 1).isSome :=
  balance_total ["ab".toList] 1 (by decide) (by decide)

/-- C5 (amended): `fix` removes every double quote; every whitespace
character surviving in its output is a single space, never doubled, and
never leading or trailing; and the parenthetical removal is the greedy
`re.sub(r"\(.*\)", "", ...)` — on "a (x) b (y) c" it removes from the
first '(' through the last ')', giving "a c". -/
theorem fix_normalizes :
    (∀ l : List Char, '\x22' ∉ fix l)
    ∧ (∀ (l : List Char) (c : Char), c ∈ fix l → isPySpace c = true → c = ' ')
    ∧ (∀ l : List Char, List.Chain' (fun a b => ¬(a = ' ' ∧ b = ' ')) (fix l))
    ∧ (∀ l : List Char, ∀ c ∈ (fix l).head?, isPySpace c = false)
    ∧ (∀ l : List Char, ∀ c ∈ (fix l).getLast?, isPySpace c = false)
    ∧ fix ("a (x) b (y) c".toList) = "a c".toList :=
  ⟨quote_not_mem_fix, fun _ _ h hs => space_mem_fix h hs, chain_fix, head_fix,
    getLast_fix, by decide⟩

/-- C5 (witness): the membership and head hypotheses of `fix_normalizes`
discharged on the concrete input "x\ty", whose fix is "x y". -/
theorem fix_normalizes_witness : (' ' : Char) = ' ' ∧ isPySpace 'x' = false :=
  ⟨fix_normalizes.2.1 ("x\ty".toList) ' ' (by decide) (by decide),
    fix_normalizes.2.2.2.1 ("x\ty".toList) 'x' (by decide)⟩

/-- C9 (amended): `fix` is idempotent on every input that contains no
newline character.  (Idempotence fails in general only because the
whitespace collapse can merge two newline-separated spans into one new
greedy paren match, as in the counterexample.) -/
theorem fix_idempotent_no_newline (l : List Char) (hnl : '\n' ∉ l) :
    fix (fix l) = fix l := by
  have hq : removeQuotes (fix l) = fix l := by
    apply List.filter_eq_self.mpr
    intro a ha
    have : a ≠ '\x22' := fun he => quote_not_mem_fix l (he ▸ ha)
    simpa using this
  have hsp : subParens (fix l) = fix l := subParensF_eq_self _ (no_pat_fix hnl)
  have hcw : collapseWS (fix l) = fix l :=
    collapseWS_eq_self (fun c hc hs => space_mem_fix hc hs) (chain_fix l)
  have hps : pyStrip (fix l) = fix l := pyStrip_eq_self (head_fix l) (getLast_fix l)
  show pyStrip (collapseWS (subParens (removeQuotes (fix l)))) = fix l
  rw [hq, hsp, hcw, hps]

/-- C9 (witness): idempotence at the concrete newline-free input
"a (x) b". -/
theorem fix_idempotent_no_newline_witness :
    fix (fix ("a (x) b".toList)) = fix ("a (x) b".toList) :=
  fix_idempotent_no_newline ("a (x) b".toList) (by decide)

end Codelog
